import Mathlib

/-!
Verification of the libroom geometric acoustics engine against its
specification.  The repository's visible source is the binding shim
`pyroomacoustics/libroom_src/libroom.cpp`; the engine implementation
files it includes (`geometry.hpp`, `wall.hpp`, `room.hpp` and their
translation units) are not part of the visible tree, so the
corresponding operations are modelled from the specification where
noted.  All geometry is embedded over exact rationals: the exact model
is the idealisation that the floating-point code approximates, and
every tolerance-qualified statement is established exactly (hence
within any tolerance).
-/

namespace Libroom

/-- Dot product of two coordinate lists (vectors are coordinate lists,
one rational per coordinate). -/
def vdot (a b : List ℚ) : ℚ := (List.zipWith (fun u v => u * v) a b).sum

/-- Componentwise difference of two coordinate lists. -/
def vsub (a b : List ℚ) : List ℚ := List.zipWith (fun u v => u - v) a b

/-- Componentwise sum of two coordinate lists. -/
def vadd (a b : List ℚ) : List ℚ := List.zipWith (fun u v => u + v) a b

/-- Scalar multiple of a coordinate list. -/
def vsmul (k : ℚ) (a : List ℚ) : List ℚ := a.map (fun u => k * u)

/-- Squared Euclidean norm of a coordinate list. -/
def vnormSq (v : List ℚ) : ℚ := vdot v v

/-- Modelled from the spec: the point-mirroring core of `Wall::reflect`
(wall.cpp is absent from the visible tree): a point `p` is mirrored
across the plane through `o` with unit normal `n` by subtracting twice
its signed distance along the normal. -/
def reflectPoint (o n p : List ℚ) : List ℚ :=
  vsub p (vsmul (2 * vdot n (vsub p o)) n)

/-- Modelled from the spec: the Wall data model (wall.hpp is absent from
the visible tree).  A wall is an immutable planar polygon with an
absorption coefficient and an optional name; `dim`, `origin`, `normal`,
`basis` and `flat_corners` are the derived geometric fields exposed
read-only by the binding layer. -/
structure Wall where
  corners : List (List ℚ)
  absorption : ℚ
  name : String
  dim : Nat
  origin : List ℚ
  normal : List ℚ
  basis : List (List ℚ)
  flat_corners : List (List ℚ)
deriving DecidableEq, Repr

/-- Mirror a point across the wall's plane. -/
def Wall.reflect (w : Wall) (p : List ℚ) : List ℚ :=
  reflectPoint w.origin w.normal p

/-- Modelled from the spec: side classification of a point relative to a
wall's plane, by the sign of normal-dot-(point minus origin), tolerant
to the geometric tolerance `eps`. -/
def sideEps (eps : ℚ) (o n p : List ℚ) : Int :=
  let d := vdot n (vsub p o)
  if d > eps then 1 else if d < -eps then -1 else 0

/-- Side classification of a point relative to the wall's plane under
tolerance `eps`. -/
def Wall.side (w : Wall) (eps : ℚ) (p : List ℚ) : Int :=
  sideEps eps w.origin w.normal p

/-- Modelled from the spec: structural wall equality (same corners and
absorption). -/
def Wall.same_as (w w' : Wall) : Bool :=
  w.corners = w'.corners && w.absorption = w'.absorption

/-- Planar coordinate accessors for a flattened 2D corner. -/
def coordX (p : List ℚ) : ℚ := p.getD 0 0

/-- Second planar coordinate of a flattened 2D corner. -/
def coordY (p : List ℚ) : ℚ := p.getD 1 0

/-- Modelled from the spec: shoelace signed area of a planar polygon
given by its 2D corners. -/
def shoelace (pts : List (List ℚ)) : ℚ :=
  ((pts.zip (pts.rotateLeft 1)).map
    (fun ab => coordX ab.1 * coordY ab.2 - coordX ab.2 * coordY ab.1)).sum

/-- Modelled from the spec: `Wall::area` is the absolute value of the
signed polygon area of the wall's corners in its local 2D frame. -/
def Wall.area (w : Wall) : ℚ := |shoelace w.flat_corners| / 2

/-- The Room data model, as populated by the factory `create_room` in
libroom.cpp: walls, obstructing wall indices, microphone matrix (stored
as its list of columns), the dimensionality inherited from the first
wall, the reference microphone position (first microphone column), the
cached maximum-distance bound, and the result collections appended by
simulation runs. -/
structure Room where
  walls : List Wall
  obstructing_walls : List Int
  microphones : List (List ℚ)
  dim : Nat
  mic_pos : List ℚ
  max_dist : ℚ
  sources : List (List ℚ) := []
  orders : List Nat := []
  attenuations : List ℚ := []
deriving DecidableEq, Repr

/-- Squared distance between two coordinate lists. -/
def sqDist (a b : List ℚ) : ℚ := vnormSq (vsub a b)

/-- All wall corners of a room. -/
def allCorners (r : Room) : List (List ℚ) := r.walls.flatMap (fun w => w.corners)

/-- Modelled from the spec: `Room::get_max_distance` (room.hpp is absent
from the visible tree) computes the cached maximum pairwise distance
bound used to cap ray and path lengths; over exact rationals the model
takes the maximum pairwise squared corner distance plus one. -/
def get_max_distance (r : Room) : ℚ :=
  (((allCorners r).flatMap
      (fun c1 => (allCorners r).map (fun c2 => sqDist c1 c2))).foldr max 0) + 1

/-- The factory `create_room` from libroom.cpp, translated line by line:
it stores the microphone matrix, copies the wall list and the
obstructing-wall indices, takes the room dimensionality from the first
wall, designates the first microphone column as `mic_pos`, and caches
`get_max_distance`.  The C++ performs no validation: the only failure
points are the out-of-bounds accesses `walls[0]` and
`microphones.col(0)`, which are undefined behaviour on an empty wall
list or a zero-column microphone matrix and are modelled as `none`. -/
def create_room (walls : List Wall) (obstructing : List Int)
    (microphones : List (List ℚ)) : Option Room :=
  match walls.head?, microphones.head? with
  | some w0, some m0 =>
    let r0 : Room :=
      { walls := walls
        obstructing_walls := obstructing
        microphones := microphones
        dim := w0.dim
        mic_pos := m0
        max_dist := 0 }
    some { r0 with max_dist := get_max_distance r0 }
  | _, _ => none

/-- The public interface of a constructed Wall, as declared by the
pybind bindings in libroom.cpp (lines 76-93): the geometric fields are
bound `def_readonly`, only `absorption` and `name` are bound
`def_readwrite`, and the exposed methods (`area`, `side`, `reflect`,
`same_as`, ...) are read-only queries. -/
inductive WallOp where
  | setAbsorption (a : ℚ)
  | setName (s : String)
  | getArea
  | getSide (eps : ℚ) (p : List ℚ)
  | getReflect (p : List ℚ)
  | getSameAs (w : Wall)

/-- State transition of a wall under one public-interface operation:
the two writable fields may be assigned; the query methods compute
their value and leave the wall unchanged. -/
def Wall.applyOp (w : Wall) : WallOp → Wall
  | .setAbsorption a => { w with absorption := a }
  | .setName s => { w with name := s }
  | .getArea => let _ := w.area; w
  | .getSide eps p => let _ := w.side eps p; w
  | .getReflect p => let _ := w.reflect p; w
  | .getSameAs w' => let _ := w.same_as w'; w

/-- Result of a sequence of public-interface operations on a wall. -/
def Wall.applyOps (w : Wall) (ops : List WallOp) : Wall :=
  ops.foldl Wall.applyOp w

/-- The process-wide libroom state: the single global geometric
tolerance `libroom_eps` declared at libroom.cpp line 17. -/
structure LibroomState where
  libroom_eps : ℚ
deriving DecidableEq, Repr

/-- The `set_eps` binding (libroom.cpp line 109) assigns the global
tolerance. -/
def set_eps (x : ℚ) (s : LibroomState) : LibroomState :=
  { s with libroom_eps := x }

/-- The `get_eps` binding (libroom.cpp line 110) reads the global
tolerance. -/
def get_eps (s : LibroomState) : ℚ := s.libroom_eps

/-- Modelled from the spec: the orientation test `ccw3p`
(geometry.cpp is absent from the visible tree): the sign of the 2D
cross product of the three points, where inputs within `eps` of
collinear report collinear (0). -/
def ccw3pEps (eps : ℚ) (p1 p2 p3 : ℚ × ℚ) : Int :=
  let d := (p2.1 - p1.1) * (p3.2 - p1.2) - (p3.1 - p1.1) * (p2.2 - p1.2)
  if d > eps then 1 else if d < -eps then -1 else 0

/-- The orientation test as invoked through the process-wide state: it
reads its tolerance from the global `libroom_eps`. -/
def ccw3pSt (s : LibroomState) (p1 p2 p3 : ℚ × ℚ) : Int :=
  ccw3pEps s.libroom_eps p1 p2 p3

/-- Side classification as invoked through the process-wide state: it
reads its tolerance from the global `libroom_eps`. -/
def sideSt (s : LibroomState) (o n p : List ℚ) : Int :=
  sideEps s.libroom_eps o n p

/-- Modelled from the spec: the distinct error kinds of the geometry
kernel's failure policy for malformed inputs. -/
inductive GeometryError where
  | degenerateSegment
  | zeroVector
deriving DecidableEq, Repr

/-- Modelled from the spec: `cos_angle_between` (geometry.cpp is absent
from the visible tree) computes the angle between two vectors via the
normalized dot product and must report a zero-length input as a
distinct error rather than returning NaN.  Exact rationals have no
square roots, so the model returns the signed squared cosine, which
carries the same well-definedness content; the claim concerns only the
error reporting. -/
def cos_angle_between (v1 v2 : List ℚ) : Except GeometryError ℚ :=
  if vnormSq v1 = 0 ∨ vnormSq v2 = 0 then
    .error .zeroVector
  else
    .ok (vdot v1 v2 * |vdot v1 v2| / (vnormSq v1 * vnormSq v2))

/-- Modelled from the spec: `dist_line_point` (geometry.cpp is absent
from the visible tree) computes the distance from point `q` to the
infinite line through `p1` and `p2` and must report a degenerate
(zero-length) segment as a distinct error rather than returning NaN.
Exact rationals have no square roots, so the model returns the squared
distance. -/
def dist_line_point (p1 p2 q : List ℚ) : Except GeometryError ℚ :=
  if vnormSq (vsub p2 p1) = 0 then
    .error .degenerateSegment
  else
    .ok ((vnormSq (vsub q p1) * vnormSq (vsub p2 p1) - vdot (vsub q p1) (vsub p2 p1) ^ 2)
      / vnormSq (vsub p2 p1))

/-- The energy bookkeeping of one wall hit in the ray tracer. -/
structure ScatterSplit where
  specular : ℚ
  diffuse : ℚ
deriving DecidableEq, Repr

/-- Modelled from the spec: the energy split of `Room::scat_ray`
(room.hpp is absent from the visible tree).  At a wall hit the ray's
energy first decays by the wall absorption; the surviving (pre-scatter)
energy is then split between the specular reflected ray and the
diffuse scattered contribution according to the scattering
coefficient. -/
def scat_ray (energy absorption scattering : ℚ) : ScatterSplit :=
  let preScatter := energy * (1 - absorption)
  { specular := preScatter * (1 - scattering)
    diffuse := preScatter * scattering }

/-- The energy entering the specular/diffuse split at a wall hit: the
ray energy after the wall absorption has been applied. -/
def preScatterEnergy (energy absorption : ℚ) : ℚ := energy * (1 - absorption)

/-- Dot product of two 3D coordinate functions. -/
def dotF (a b : Fin 3 → ℚ) : ℚ := ∑ i, a i * b i

/-- Modelled from the spec: the plane-and-absorption data of a wall as
consumed by the image-source search and the ray tracer (room.hpp is
absent from the visible tree): a plane through `o` with inward unit
normal `n`, and the wall's absorption coefficient. -/
structure PlaneWall where
  o : Fin 3 → ℚ
  n : Fin 3 → ℚ
  absorption : ℚ

/-- Mirror image of a point across a wall plane with unit normal. -/
def reflectF (w : PlaneWall) (p : Fin 3 → ℚ) : Fin 3 → ℚ :=
  fun i => p i - 2 * dotF w.n (fun j => p j - w.o j) * w.n i

/-- Signed distance of a point along a wall's inward normal. -/
def frontDist (w : PlaneWall) (p : Fin 3 → ℚ) : ℚ :=
  dotF w.n (fun j => p j - w.o j)

/-- One image-source record as accumulated by the recursive search:
position, reflection order, stored cumulative attenuation, and the
sequence of walls reflected off along the path (the last entry is the
generating wall). -/
structure ISNode where
  pos : Fin 3 → ℚ
  order : Nat
  att : ℚ
  path : List PlaneWall

/-- Modelled from the spec: one expansion step of the recursive
image-source search (room.hpp is absent from the visible tree).  For
each wall strictly in front of which the current image lies, the image
is mirrored across that wall's plane, the order is incremented, and the
stored attenuation is multiplied by one minus the wall's absorption;
images behind (or on) a wall are not reflected off it, which prunes
back-face reflections. -/
def ismStep (walls : List PlaneWall) (nd : ISNode) : List ISNode :=
  walls.filterMap fun w =>
    if 0 < frontDist w nd.pos then
      some ⟨reflectF w nd.pos, nd.order + 1, nd.att * (1 - w.absorption), nd.path ++ [w]⟩
    else none

/-- The image sources of exact reflection order `k`: order 0 is the
real source itself with attenuation 1. -/
def ismLevel (walls : List PlaneWall) (src : Fin 3 → ℚ) : Nat → List ISNode
  | 0 => [⟨src, 0, 1, []⟩]
  | k + 1 => (ismLevel walls src k).flatMap (ismStep walls)

/-- Modelled from the spec: `Room::image_source_model` enumerates all
image sources of order at most `maxOrder` by the recursive search. -/
def image_source_model (walls : List PlaneWall) (src : Fin 3 → ℚ)
    (maxOrder : Nat) : List ISNode :=
  (List.range (maxOrder + 1)).flatMap (ismLevel walls src)

/-- Standard basis vector of 3-space. -/
def eVec (j : Fin 3) : Fin 3 → ℚ := fun i => if i = j then 1 else 0

/-- The wall of an axis-aligned box at coordinate 0 of axis `j`, with
inward normal pointing up the axis. -/
def lowWall (j : Fin 3) (aLow : Fin 3 → ℚ) : PlaneWall :=
  ⟨fun _ => 0, eVec j, aLow j⟩

/-- The wall of an axis-aligned box at coordinate `L j` of axis `j`,
with inward normal pointing down the axis. -/
def highWall (j : Fin 3) (L aHigh : Fin 3 → ℚ) : PlaneWall :=
  ⟨fun i => if i = j then L j else 0, fun i => if i = j then -1 else 0, aHigh j⟩

/-- The six walls of the axis-aligned box `[0, L 0] × [0, L 1] × [0, L 2]`. -/
def boxWalls (L aLow aHigh : Fin 3 → ℚ) : List PlaneWall :=
  [lowWall 0 aLow, highWall 0 L aHigh,
   lowWall 1 aLow, highWall 1 L aHigh,
   lowWall 2 aLow, highWall 2 L aHigh]

/-- Closed-form one-axis image coordinate of the shoebox fast path:
the image of lattice index `m` of a source at `x` between the walls at
0 and `L` (index 0 is the source itself). -/
def sb1Pos (L x : ℚ) (m : Int) : ℚ :=
  if m % 2 = 0 then m * L + x else (m + 1) * L - x

/-- Number of bounces off the low wall of one axis for lattice index `m`. -/
def lowCount (m : Int) : Nat := (m / 2).natAbs

/-- Number of bounces off the high wall of one axis for lattice index `m`. -/
def highCount (m : Int) : Nat := ((m + 1) / 2).natAbs

/-- Reflection order of the shoebox image with lattice index `m`. -/
def sbOrder (m : Fin 3 → Int) : Nat := ∑ j, (m j).natAbs

/-- Position of the shoebox image with lattice index `m`. -/
def sbPos (L x : Fin 3 → ℚ) (m : Fin 3 → Int) : Fin 3 → ℚ :=
  fun j => sb1Pos (L j) (x j) (m j)

/-- Attenuation of the shoebox image with lattice index `m`: the product
over the axes of one minus each wall's absorption raised to the count
of bounces off that wall. -/
def sbAtt (aLow aHigh : Fin 3 → ℚ) (m : Fin 3 → Int) : ℚ :=
  ∏ j, (1 - aLow j) ^ lowCount (m j) * (1 - aHigh j) ^ highCount (m j)

/-- The image-source record data compared across the two generation
paths: position, order and attenuation. -/
structure ISRecord where
  pos : Fin 3 → ℚ
  order : Nat
  att : ℚ
deriving DecidableEq

/-- The record stored for an image-source node. -/
def toRecord (nd : ISNode) : ISRecord := ⟨nd.pos, nd.order, nd.att⟩

/-- The integers from `-N` to `N`. -/
def intRange (N : Nat) : List Int :=
  (List.range (2 * N + 1)).map (fun (k : Nat) => (k : Int) - (N : Int))

/-- Modelled from the spec: `Room::image_source_shoebox` generates the
image sources of an axis-aligned box room directly by the closed-form
coordinate reflection formulas, combinatorially over the per-axis
lattice indices, up to the order bound. -/
def image_source_shoebox (L x aLow aHigh : Fin 3 → ℚ) (N : Nat) : List ISRecord :=
  (intRange N).flatMap fun m0 =>
    (intRange N).flatMap fun m1 =>
      (intRange N).flatMap fun m2 =>
        let m : Fin 3 → Int := ![m0, m1, m2]
        if sbOrder m ≤ N then
          [⟨sbPos L x m, sbOrder m, sbAtt aLow aHigh m⟩]
        else []

/-- The point at parameter `t` along the segment from `p` to `q`. -/
def pointAt (p q : Fin 3 → ℚ) (t : ℚ) : Fin 3 → ℚ :=
  fun j => p j + t * (q j - p j)

/-- Modelled from the spec: the plane-crossing parameter of the segment
from `p` to `q` against a wall plane, for a segment starting strictly
in front of the wall; `none` when the segment does not reach the
plane (in particular when it is parallel to it). -/
def crossParam (w : PlaneWall) (p q : Fin 3 → ℚ) : Option ℚ :=
  if 0 < frontDist w p ∧ frontDist w p + dotF w.n (fun j => q j - p j) ≤ 0 then
    some (-frontDist w p / dotF w.n (fun j => q j - p j))
  else none

/-- Membership of a point in the closed room bounded by the walls: on
the inner side of, or on, every wall plane. -/
def insideRoomB (walls : List PlaneWall) (pt : Fin 3 → ℚ) : Bool :=
  walls.all fun w => decide (0 ≤ frontDist w pt)

/-- Modelled from the spec: `Room::next_wall_hit` (room.hpp is absent
from the visible tree) finds, among all walls, the nearest intersection
of the segment from `p` to `q` ahead of the origin `p`; a candidate
plane crossing counts as a wall hit only when the crossing point lies
on the wall polygon, which for a room whose walls are the facets of its
bounding convex polytope means it lies within the room.  Returns the
hit wall id and the segment parameter of the hit point, or `none` when
no wall is struck. -/
def next_wall_hit (walls : List PlaneWall) (p q : Fin 3 → ℚ) :
    Option (Nat × ℚ) :=
  let cands := walls.enum.filterMap fun iw =>
    match crossParam iw.2 p q with
    | some t => if insideRoomB walls (pointAt p q t) then some (iw.1, t) else none
    | none => none
  cands.argmin (fun c => c.2)

/- Length bookkeeping for the vector operations. -/

theorem length_vsub (a b : List ℚ) : (vsub a b).length = min a.length b.length := by
  simp [vsub]

theorem length_vsmul (k : ℚ) (a : List ℚ) : (vsmul k a).length = a.length := by
  simp [vsmul]

theorem vdot_vsub (n a b : List ℚ) (ha : a.length = n.length) (hb : b.length = n.length) :
    vdot n (vsub a b) = vdot n a - vdot n b := by
  induction n generalizing a b with
  | nil =>
    have ha' : a = [] := List.length_eq_zero.mp (by simpa using ha)
    have hb' : b = [] := List.length_eq_zero.mp (by simpa using hb)
    simp [ha', hb', vdot, vsub]
  | cons x xs ih =>
    cases a with
    | nil => simp at ha
    | cons a0 as =>
      cases b with
      | nil => simp at hb
      | cons b0 bs =>
        have ha' : as.length = xs.length := by simpa using ha
        have hb' : bs.length = xs.length := by simpa using hb
        have hrec := ih as bs ha' hb'
        simp only [vdot, vsub, List.zipWith_cons_cons, List.sum_cons] at hrec ⊢
        rw [hrec]
        ring

theorem vdot_vsmul (n : List ℚ) (k : ℚ) (a : List ℚ) :
    vdot n (vsmul k a) = k * vdot n a := by
  induction n generalizing a with
  | nil => simp [vdot]
  | cons x xs ih =>
    cases a with
    | nil => simp [vdot, vsmul]
    | cons a0 as =>
      have hrec := ih as
      simp only [vdot, vsmul, List.map_cons, List.zipWith_cons_cons, List.sum_cons] at hrec ⊢
      rw [hrec]
      ring

theorem vsub_vsub (p u v : List ℚ) :
    vsub (vsub p u) v = vsub p (vadd u v) := by
  induction p generalizing u v with
  | nil => simp [vsub]
  | cons p0 ps ih =>
    cases u with
    | nil => simp [vsub, vadd]
    | cons u0 us =>
      cases v with
      | nil => simp [vsub, vadd]
      | cons v0 vs =>
        simp only [vsub, vadd, List.zipWith_cons_cons, List.cons.injEq] at ih ⊢
        exact ⟨by ring, ih us vs⟩

theorem vadd_vsmul_vsmul (k k' : ℚ) (n : List ℚ) :
    vadd (vsmul k n) (vsmul k' n) = vsmul (k + k') n := by
  induction n with
  | nil => simp [vadd, vsmul]
  | cons x xs ih =>
    simp only [vadd, vsmul, List.map_cons, List.zipWith_cons_cons, List.cons.injEq] at ih ⊢
    exact ⟨by ring, ih⟩

theorem vsub_vsmul_zero (p n : List ℚ) (h : p.length = n.length) :
    vsub p (vsmul 0 n) = p := by
  induction p generalizing n with
  | nil => simp [vsub]
  | cons p0 ps ih =>
    cases n with
    | nil => simp at h
    | cons x xs =>
      have h' : ps.length = xs.length := by simpa using h
      simp only [vsub, vsmul, List.map_cons, List.zipWith_cons_cons, List.cons.injEq]
      refine ⟨by ring, ?_⟩
      simpa [vsmul] using ih xs h'

theorem length_reflectPoint (o n p : List ℚ) (hp : p.length = n.length) :
    (reflectPoint o n p).length = n.length := by
  simp [reflectPoint, length_vsub, length_vsmul, hp]

/-- Reflection across a plane with a unit normal is an involution. -/
theorem reflectPoint_involutive (o n p : List ℚ)
    (hn : vdot n n = 1) (hp : p.length = n.length) (ho : o.length = n.length) :
    reflectPoint o n (reflectPoint o n p) = p := by
  set c := vdot n (vsub p o) with hc
  have hlen : (reflectPoint o n p).length = n.length := length_reflectPoint o n p hp
  have hdotr : vdot n (reflectPoint o n p) = vdot n p - 2 * c := by
    rw [reflectPoint, vdot_vsub n p (vsmul (2 * c) n) hp (by simp [length_vsmul]),
      vdot_vsmul, hn]
    ring
  have hc' : vdot n (vsub (reflectPoint o n p) o) = -c := by
    rw [vdot_vsub n (reflectPoint o n p) o hlen ho, hdotr]
    have : vdot n (vsub p o) = vdot n p - vdot n o := vdot_vsub n p o hp ho
    rw [hc, this]
    ring
  rw [reflectPoint, hc', reflectPoint, ← hc, vsub_vsub,
    vadd_vsmul_vsmul]
  have : 2 * c + 2 * -c = 0 := by ring
  rw [this, vsub_vsmul_zero p n hp]

theorem applyOp_frame (w : Wall) (op : WallOp) :
    (w.applyOp op).corners = w.corners ∧ (w.applyOp op).origin = w.origin ∧
    (w.applyOp op).normal = w.normal ∧ (w.applyOp op).basis = w.basis ∧
    (w.applyOp op).flat_corners = w.flat_corners ∧ (w.applyOp op).dim = w.dim := by
  cases op <;> exact ⟨rfl, rfl, rfl, rfl, rfl, rfl⟩

/-- C4: for every wall whose stored normal is a unit vector and every
point of the wall's dimensionality, applying `Wall::reflect` twice
returns the original point exactly — in particular within the global
tolerance `eps` — so reflection across the wall's plane is an
involution. -/
theorem wall_reflect_involution (w : Wall) (p : List ℚ)
    (hn : vdot w.normal w.normal = 1)
    (hp : p.length = w.normal.length) (ho : w.origin.length = w.normal.length) :
    w.reflect (w.reflect p) = p :=
  reflectPoint_involutive w.origin w.normal p hn hp ho

/-- A concrete 3D wall in the plane of the last two axes, with exactly
unit normal, for evaluating the reflection involution. -/
def wallX : Wall :=
  { corners := [[0, 0, 0], [0, 1, 0], [0, 1, 1], [0, 0, 1]]
    absorption := 1 / 10
    name := "x0"
    dim := 3
    origin := [0, 0, 0]
    normal := [1, 0, 0]
    basis := [[0, 1, 0], [0, 0, 1]]
    flat_corners := [[0, 0], [1, 0], [1, 1], [0, 1]] }

/-- Witness for the reflection involution at a concrete wall and point. -/
theorem wall_reflect_involution_witness :
    wallX.reflect (wallX.reflect [3, 2, 5]) = [3, 2, 5] :=
  wall_reflect_involution wallX [3, 2, 5] (by norm_num [wallX, vdot]) rfl rfl

/-- C9: after construction, every sequence of public-interface
operations on a Wall leaves the geometric fields (corners, origin,
normal, basis, flat_corners, dim) unchanged: the binding layer exposes
them read-only, and only absorption and name are writable. -/
theorem wall_geometric_fields_immutable (w : Wall) (ops : List WallOp) :
    (w.applyOps ops).corners = w.corners ∧ (w.applyOps ops).origin = w.origin ∧
    (w.applyOps ops).normal = w.normal ∧ (w.applyOps ops).basis = w.basis ∧
    (w.applyOps ops).flat_corners = w.flat_corners ∧ (w.applyOps ops).dim = w.dim := by
  induction ops generalizing w with
  | nil => exact ⟨rfl, rfl, rfl, rfl, rfl, rfl⟩
  | cons op rest ih =>
    have h1 := applyOp_frame w op
    have h2 := ih (w.applyOp op)
    have hfold : w.applyOps (op :: rest) = (w.applyOp op).applyOps rest := rfl
    rw [hfold]
    exact ⟨h2.1.trans h1.1, h2.2.1.trans h1.2.1, h2.2.2.1.trans h1.2.2.1,
      h2.2.2.2.1.trans h1.2.2.2.1, h2.2.2.2.2.1.trans h1.2.2.2.2.1,
      h2.2.2.2.2.2.trans h1.2.2.2.2.2⟩

/-- C7: the geometric tolerance is a single process-wide setting: after
`set_eps x`, `get_eps` returns exactly `x`, and every subsequent kernel
predicate call (orientation test, side classification) uses `x` as its
tolerance. -/
theorem eps_process_wide (s : LibroomState) (x : ℚ) (p1 p2 p3 : ℚ × ℚ)
    (o n p : List ℚ) :
    get_eps (set_eps x s) = x ∧
    ccw3pSt (set_eps x s) p1 p2 p3 = ccw3pEps x p1 p2 p3 ∧
    sideSt (set_eps x s) o n p = sideEps x o n p :=
  ⟨rfl, rfl, rfl⟩

/-- C8: malformed geometry-kernel inputs are reported as a distinct
error kind and never produce an undefined numeric result:
`cos_angle_between` reports the zero-vector error exactly on a
zero-length input vector, `dist_line_point` reports the
degenerate-segment error exactly on a zero-length segment, the two
error kinds are distinct, and on every well-formed input each function
returns an ordinary value. -/
theorem kernel_malformed_inputs_error (v1 v2 p1 p2 q : List ℚ) :
    (cos_angle_between v1 v2 = .error .zeroVector ↔
      (vnormSq v1 = 0 ∨ vnormSq v2 = 0)) ∧
    (dist_line_point p1 p2 q = .error .degenerateSegment ↔
      vnormSq (vsub p2 p1) = 0) ∧
    ((∃ c, cos_angle_between v1 v2 = .ok c) ↔
      ¬(vnormSq v1 = 0 ∨ vnormSq v2 = 0)) ∧
    ((∃ d2, dist_line_point p1 p2 q = .ok d2) ↔
      ¬vnormSq (vsub p2 p1) = 0) ∧
    GeometryError.zeroVector ≠ GeometryError.degenerateSegment := by
  refine ⟨?_, ?_, ?_, ?_, by decide⟩
  · simp only [cos_angle_between]
    split <;> simp_all
  · simp only [dist_line_point]
    split <;> simp_all
  · simp only [cos_angle_between]
    split <;> simp_all
  · simp only [dist_line_point]
    split <;> simp_all

/-- C6: at every wall hit, with the absorption and scattering
coefficients anywhere in [0,1], the energy allocated to the specular
reflected ray plus the energy allocated to the diffuse scattered
contribution equals the ray's pre-scatter energy (the energy entering
the split after wall absorption), and for nonnegative incoming energy
both allocations are nonnegative. -/
theorem scat_ray_energy_conservation (energy absorption scattering : ℚ)
    (hE : 0 ≤ energy) (ha0 : 0 ≤ absorption) (ha1 : absorption ≤ 1)
    (hs0 : 0 ≤ scattering) (hs1 : scattering ≤ 1) :
    (scat_ray energy absorption scattering).specular +
      (scat_ray energy absorption scattering).diffuse =
      preScatterEnergy energy absorption ∧
    0 ≤ (scat_ray energy absorption scattering).specular ∧
    0 ≤ (scat_ray energy absorption scattering).diffuse := by
  have h1 : 0 ≤ 1 - absorption := by linarith
  have h2 : 0 ≤ 1 - scattering := by linarith
  refine ⟨?_, ?_, ?_⟩
  · unfold scat_ray preScatterEnergy; ring
  · exact mul_nonneg (mul_nonneg hE h1) h2
  · exact mul_nonneg (mul_nonneg hE h1) hs0

/-- Witness for the scattering energy split at concrete coefficients. -/
theorem scat_ray_energy_conservation_witness :
    (scat_ray 1 (1 / 2) (1 / 4)).specular + (scat_ray 1 (1 / 2) (1 / 4)).diffuse =
      preScatterEnergy 1 (1 / 2) ∧
    0 ≤ (scat_ray 1 (1 / 2) (1 / 4)).specular ∧
    0 ≤ (scat_ray 1 (1 / 2) (1 / 4)).diffuse :=
  scat_ray_energy_conservation 1 (1 / 2) (1 / 4) (by norm_num) (by norm_num)
    (by norm_num) (by norm_num) (by norm_num)

/-- A concrete 2-dimensional wall. -/
def wallDim2 : Wall :=
  { corners := [[0, 0], [4, 0]]
    absorption := 1 / 5
    name := "south"
    dim := 2
    origin := [0, 0]
    normal := [0, 1]
    basis := [[1, 0]]
    flat_corners := [[0], [4]] }

/-- A concrete 3-dimensional wall, dimensionally inconsistent with
`wallDim2`. -/
def wallDim3 : Wall :=
  { corners := [[0, 0, 0], [4, 0, 0], [4, 4, 0], [0, 4, 0]]
    absorption := 1 / 5
    name := "floor"
    dim := 3
    origin := [0, 0, 0]
    normal := [0, 0, 1]
    basis := [[1, 0, 0], [0, 1, 0]]
    flat_corners := [[0, 0], [4, 0], [4, 4], [0, 4]] }

/-- C3 counterexample: room construction from a wall list whose walls
have inconsistent dimensionalities (a 2D wall and a 3D wall) succeeds
instead of failing with an error. -/
theorem create_room_inconsistent_dims_succeeds :
    (create_room [wallDim2, wallDim3] [] [[2, 2]]).isSome = true := rfl

/-- C3 amended: `create_room` performs no validation: it returns a room
whenever both the wall list and the microphone matrix are nonempty —
even when the walls' dimensionalities are inconsistent, in which case
the room dimensionality is silently taken from the first wall — and its
only failure mode is the out-of-bounds access on an empty wall list or
empty microphone matrix (undefined behaviour in the C++, modelled as
`none`), not a reported error. -/
theorem create_room_amended (walls : List Wall) (obstructing : List Int)
    (mics : List (List ℚ)) :
    (create_room walls obstructing mics = none ↔ (walls = [] ∨ mics = [])) ∧
    (∀ w0 ws m0 ms, walls = w0 :: ws → mics = m0 :: ms →
      ∃ r, create_room walls obstructing mics = some r ∧ r.dim = w0.dim) := by
  constructor
  · cases walls <;> cases mics <;> simp [create_room]
  · rintro w0 ws m0 ms rfl rfl
    exact ⟨_, rfl, rfl⟩

/-- Witness for the amended construction behaviour: the dimensionally
inconsistent wall list still yields a room whose dimensionality is that
of its first wall. -/
theorem create_room_amended_witness :
    ∃ r, create_room [wallDim2, wallDim3] [] [[2, 2]] = some r ∧
      r.dim = wallDim2.dim :=
  (create_room_amended [wallDim2, wallDim3] [] [[2, 2]]).2
    wallDim2 [wallDim3] [2, 2] [] rfl rfl

/-- C10: `create_room` designates the first column of the supplied
microphone matrix as the room's reference microphone position and
caches the maximum-distance bound at construction: for every nonempty
wall list and every microphone matrix with at least one column,
construction succeeds, `mic_pos` equals column 0 of the stored
microphone matrix, and `max_dist` equals `get_max_distance` of the
constructed room. -/
theorem create_room_mic_pos_max_dist (walls : List Wall) (obstructing : List Int)
    (mics : List (List ℚ)) (hw : walls ≠ []) (hm : mics ≠ []) :
    ∃ r, create_room walls obstructing mics = some r ∧
      r.microphones = mics ∧ some r.mic_pos = mics.head? ∧
      r.max_dist = get_max_distance r := by
  cases walls with
  | nil => exact absurd rfl hw
  | cons w0 ws =>
    cases mics with
    | nil => exact absurd rfl hm
    | cons m0 ms => exact ⟨_, rfl, rfl, rfl, rfl⟩

/-- Witness for the construction bookkeeping at a concrete room. -/
theorem create_room_mic_pos_max_dist_witness :
    ∃ r, create_room [wallX] [] [[1, 2, 1], [3, 1, 1]] = some r ∧
      r.microphones = [[1, 2, 1], [3, 1, 1]] ∧
      some r.mic_pos = [[1, 2, 1], [3, 1, 1]].head? ∧
      r.max_dist = get_max_distance r :=
  create_room_mic_pos_max_dist [wallX] [] [[1, 2, 1], [3, 1, 1]]
    (List.cons_ne_nil _ _) (List.cons_ne_nil _ _)

theorem ismLevel_att (walls : List PlaneWall) (src : Fin 3 → ℚ) (k : Nat) :
    ∀ nd ∈ ismLevel walls src k,
      nd.att = (nd.path.map (fun w => 1 - w.absorption)).prod ∧
      nd.order = nd.path.length ∧ nd.order = k := by
  induction k with
  | zero =>
    intro nd h
    simp only [ismLevel, List.mem_singleton] at h
    subst h
    simp
  | succ k ih =>
    intro nd h
    simp only [ismLevel, List.mem_flatMap] at h
    obtain ⟨par, hpar, hnd⟩ := h
    obtain ⟨hatt, hlen, hord⟩ := ih par hpar
    simp only [ismStep, List.mem_filterMap] at hnd
    obtain ⟨w, _, hcond⟩ := hnd
    split at hcond
    · cases hcond
      refine ⟨?_, ?_, ?_⟩
      · simp [hatt, List.prod_append]
      · simp [hlen]
      · simp [hord]
    · exact absurd hcond (by simp)

/-- C2: every image-source record produced by `image_source_model`
stores an attenuation equal to the product of one minus the wall
absorption taken over exactly the walls reflected off along that
image's path, whose count is the record's reflection order; in
particular an order-0 record has attenuation 1 (the empty product). -/
theorem image_source_attenuation_product (walls : List PlaneWall)
    (src : Fin 3 → ℚ) (maxOrder : Nat) (nd : ISNode)
    (h : nd ∈ image_source_model walls src maxOrder) :
    nd.att = (nd.path.map (fun w => 1 - w.absorption)).prod ∧
    nd.order = nd.path.length := by
  simp only [image_source_model, List.mem_flatMap, List.mem_range] at h
  obtain ⟨k, _, hk⟩ := h
  exact ⟨(ismLevel_att walls src k nd hk).1, (ismLevel_att walls src k nd hk).2.1⟩

/-- Witness for the attenuation product at the order-0 record of a
concrete run. -/
theorem image_source_attenuation_product_witness :
    (⟨fun _ => 1, 0, 1, []⟩ : ISNode).att =
      (((⟨fun _ => 1, 0, 1, []⟩ : ISNode).path.map
        (fun w => 1 - w.absorption)).prod) ∧
    (⟨fun _ => 1, 0, 1, []⟩ : ISNode).order =
      (⟨fun _ => 1, 0, 1, []⟩ : ISNode).path.length :=
  image_source_attenuation_product [] (fun _ => 1) 0 ⟨fun _ => 1, 0, 1, []⟩
    (by simp [image_source_model, ismLevel])

theorem pointAt_one (p q : Fin 3 → ℚ) : pointAt p q 1 = q := by
  funext j
  simp [pointAt]

theorem frontDist_pointAt (w : PlaneWall) (p q : Fin 3 → ℚ) (t : ℚ) :
    frontDist w (pointAt p q t) =
      frontDist w p + t * dotF w.n (fun j => q j - p j) := by
  simp only [frontDist, pointAt, dotF, Finset.mul_sum, ← Finset.sum_add_distrib]
  exact Finset.sum_congr rfl fun i _ => by ring

theorem crossParam_some_spec (w : PlaneWall) (p q : Fin 3 → ℚ) (t : ℚ)
    (h : crossParam w p q = some t) :
    0 < t ∧ t ≤ 1 ∧ frontDist w (pointAt p q t) = 0 := by
  unfold crossParam at h
  split at h
  case isTrue hc =>
    obtain ⟨ha, hab⟩ := hc
    have ht : t = -frontDist w p / dotF w.n (fun j => q j - p j) := by
      exact (Option.some.injEq _ _ ▸ h).symm
    have hb : dotF w.n (fun j => q j - p j) < 0 := by linarith
    have hbne : dotF w.n (fun j => q j - p j) ≠ 0 := ne_of_lt hb
    refine ⟨?_, ?_, ?_⟩
    · rw [ht]
      exact div_pos_iff.mpr (Or.inr ⟨by linarith, hb⟩)
    · rw [ht]
      exact div_le_one_iff.mpr (Or.inr (Or.inr ⟨hb, by linarith⟩))
    · rw [frontDist_pointAt, ht, div_mul_cancel₀ _ hbne]
      ring
  case isFalse => exact absurd h (by simp)

theorem crossParam_of_exit (w : PlaneWall) (p q : Fin 3 → ℚ)
    (ha : 0 < frontDist w p) (hq : frontDist w q ≤ 0) :
    crossParam w p q =
      some (-frontDist w p / dotF w.n (fun j => q j - p j)) := by
  have h1 := frontDist_pointAt w p q 1
  rw [pointAt_one] at h1
  have hab : frontDist w p + dotF w.n (fun j => q j - p j) ≤ 0 := by linarith
  simp [crossParam, ha, hab]

theorem crossParam_earlier (w : PlaneWall) (p q : Fin 3 → ℚ) (ts : ℚ)
    (ha : 0 < frontDist w p) (hts0 : 0 < ts) (hts1 : ts ≤ 1)
    (hneg : frontDist w (pointAt p q ts) < 0) :
    ∃ t, crossParam w p q = some t ∧ t < ts := by
  have hlin := frontDist_pointAt w p q ts
  have hb : dotF w.n (fun j => q j - p j) < 0 := by nlinarith
  have h1 := frontDist_pointAt w p q 1
  rw [pointAt_one] at h1
  have hq : frontDist w q ≤ 0 := by nlinarith
  refine ⟨-frontDist w p / dotF w.n (fun j => q j - p j),
    crossParam_of_exit w p q ha hq, ?_⟩
  have hspec := crossParam_some_spec w p q _
    (crossParam_of_exit w p q ha hq)
  obtain ⟨ht0, _, hzero⟩ := hspec
  rw [frontDist_pointAt] at hzero
  nlinarith

theorem insideRoomB_iff (walls : List PlaneWall) (pt : Fin 3 → ℚ) :
    insideRoomB walls pt = true ↔ ∀ w ∈ walls, 0 ≤ frontDist w pt := by
  simp [insideRoomB, List.all_eq_true]

/-- C5: for a closed room — a bounded convex polytope whose walls are
its facets, with inward normals — and a ray from an interior origin `p`
whose max-distance-capped endpoint `q` has left the open interior (as
boundedness guarantees), `next_wall_hit` returns a wall hit (a valid
wall id and a hit parameter): it never returns the no-hit outcome. -/
theorem next_wall_hit_interior_hits (walls : List PlaneWall)
    (p q : Fin 3 → ℚ) (hp : ∀ w ∈ walls, 0 < frontDist w p)
    (hq : ∃ w ∈ walls, frontDist w q ≤ 0) :
    (next_wall_hit walls p q).isSome = true := by
  classical
  obtain ⟨w0, hw0, hw0q⟩ := hq
  -- the multiset of plane-crossing parameters is nonempty
  have hcross0 : ∃ t, crossParam w0 p q = some t :=
    ⟨_, crossParam_of_exit w0 p q (hp w0 hw0) hw0q⟩
  set times := walls.filterMap (fun w => crossParam w p q) with htimes
  have htne : times ≠ [] := by
    obtain ⟨t0, ht0⟩ := hcross0
    exact List.ne_nil_of_mem (List.mem_filterMap.mpr ⟨w0, hw0, ht0⟩)
  have hfinne : times.toFinset.Nonempty := by
    obtain ⟨t0, ht0⟩ := hcross0
    exact ⟨t0, List.mem_toFinset.mpr (List.mem_filterMap.mpr ⟨w0, hw0, ht0⟩)⟩
  obtain ⟨ts, hts_mem, hts_min⟩ :=
    times.toFinset.exists_min_image (fun t => t) hfinne
  obtain ⟨ws, hws_mem, hws_cross⟩ :=
    List.mem_filterMap.mp (List.mem_toFinset.mp hts_mem)
  obtain ⟨hts0, hts1, _⟩ := crossParam_some_spec ws p q ts hws_cross
  -- the minimal plane crossing lies inside the room, hence on its facet
  have hinside : insideRoomB walls (pointAt p q ts) = true := by
    rw [insideRoomB_iff]
    intro w' hw'
    by_contra hlt
    push_neg at hlt
    obtain ⟨t', ht'_cross, ht'_lt⟩ :=
      crossParam_earlier w' p q ts (hp w' hw') hts0 hts1 hlt
    have ht'_mem : t' ∈ times.toFinset :=
      List.mem_toFinset.mpr (List.mem_filterMap.mpr ⟨w', hw', ht'_cross⟩)
    exact absurd (hts_min t' ht'_mem) (by simpa using ht'_lt)
  -- hence the candidate list of next_wall_hit is nonempty
  obtain ⟨i, hi, hgeti⟩ := List.mem_iff_getElem.mp hws_mem
  have henum : (i, ws) ∈ walls.enum :=
    List.mk_mem_enum_iff_getElem?.mpr (by rw [List.getElem?_eq_getElem hi, hgeti])
  have hcand : (i, ts) ∈ walls.enum.filterMap (fun iw =>
      match crossParam iw.2 p q with
      | some t => if insideRoomB walls (pointAt p q t) then some (iw.1, t) else none
      | none => none) := by
    refine List.mem_filterMap.mpr ⟨(i, ws), henum, ?_⟩
    rw [hws_cross]
    simp [hinside]
  unfold next_wall_hit
  rcases hres : (walls.enum.filterMap (fun iw =>
      match crossParam iw.2 p q with
      | some t => if insideRoomB walls (pointAt p q t) then some (iw.1, t) else none
      | none => none)).argmin (fun c => c.2) with _ | c
  · rw [List.argmin_eq_none] at hres
    rw [hres] at hcand
    exact absurd hcand (List.not_mem_nil _)
  · simp [hres]

/-- Witness for `next_wall_hit` on the unit box with the ray from its
center towards the positive first axis. -/
theorem next_wall_hit_interior_hits_witness :
    (next_wall_hit (boxWalls (fun _ => 1) (fun _ => 0) (fun _ => 0))
      (fun _ => 1 / 2) ![2, 1 / 2, 1 / 2]).isSome = true := by
  refine next_wall_hit_interior_hits _ _ _ ?_ ?_
  · intro w hw
    simp only [boxWalls, List.mem_cons, List.not_mem_nil, or_false] at hw
    rcases hw with h | h | h | h | h | h <;>
      · subst h
        norm_num [frontDist, dotF, lowWall, highWall, eVec, Fin.sum_univ_three]
  · refine ⟨highWall 0 (fun _ => 1) (fun _ => 0), by simp [boxWalls], ?_⟩
    norm_num [frontDist, dotF, highWall, Fin.sum_univ_three]

theorem sb1Pos_pos_iff (L x : ℚ) (m : Int) (hx : 0 < x) (hL : x < L) :
    0 < sb1Pos L x m ↔ 0 ≤ m := by
  have hL0 : 0 < L := lt_trans hx hL
  by_cases hm : m % 2 = 0
  · rw [sb1Pos, if_pos hm]
    constructor
    · intro h
      by_contra hneg
      push_neg at hneg
      have h2 : m ≤ -2 := by omega
      have h3 : (m : ℚ) ≤ -2 := by exact_mod_cast h2
      nlinarith
    · intro h
      have h3 : (0 : ℚ) ≤ (m : ℚ) := by exact_mod_cast h
      nlinarith
  · rw [sb1Pos, if_neg hm]
    constructor
    · intro h
      by_contra hneg
      push_neg at hneg
      have h2 : m + 1 ≤ 0 := by omega
      have h3 : ((m : ℚ) + 1) ≤ 0 := by exact_mod_cast h2
      nlinarith
    · intro h
      have h2 : 1 ≤ m + 1 := by omega
      have h3 : (1 : ℚ) ≤ (m : ℚ) + 1 := by exact_mod_cast h2
      nlinarith

theorem sb1Pos_lt_iff (L x : ℚ) (m : Int) (hx : 0 < x) (hL : x < L) :
    sb1Pos L x m < L ↔ m ≤ 0 := by
  have hL0 : 0 < L := lt_trans hx hL
  by_cases hm : m % 2 = 0
  · rw [sb1Pos, if_pos hm]
    constructor
    · intro h
      by_contra hneg
      push_neg at hneg
      have h2 : 2 ≤ m := by omega
      have h3 : (2 : ℚ) ≤ (m : ℚ) := by exact_mod_cast h2
      nlinarith
    · intro h
      have h3 : (m : ℚ) ≤ 0 := by exact_mod_cast h
      nlinarith
  · rw [sb1Pos, if_neg hm]
    constructor
    · intro h
      by_contra hneg
      push_neg at hneg
      have h2 : 2 ≤ m + 1 := by omega
      have h3 : (2 : ℚ) ≤ (m : ℚ) + 1 := by exact_mod_cast h2
      nlinarith
    · intro h
      have h2 : m + 1 ≤ 0 := by omega
      have h3 : (m : ℚ) + 1 ≤ 0 := by exact_mod_cast h2
      nlinarith

theorem sb1Pos_neg (L x : ℚ) (m : Int) :
    -sb1Pos L x m = sb1Pos L x (-m - 1) := by
  by_cases hm : m % 2 = 0
  · have hm' : ¬(-m - 1) % 2 = 0 := by omega
    rw [sb1Pos, if_pos hm, sb1Pos, if_neg hm']
    push_cast
    ring
  · have hm' : (-m - 1) % 2 = 0 := by omega
    rw [sb1Pos, if_neg hm, sb1Pos, if_pos hm']
    push_cast
    ring

theorem sb1Pos_mirror (L x : ℚ) (m : Int) :
    2 * L - sb1Pos L x m = sb1Pos L x (1 - m) := by
  by_cases hm : m % 2 = 0
  · have hm' : ¬(1 - m) % 2 = 0 := by omega
    rw [sb1Pos, if_pos hm, sb1Pos, if_neg hm']
    push_cast
    ring
  · have hm' : (1 - m) % 2 = 0 := by omega
    rw [sb1Pos, if_neg hm, sb1Pos, if_pos hm']
    push_cast
    ring

theorem lowCount_lowMove (m : Int) (h : 0 ≤ m) : lowCount (-m - 1) = lowCount m + 1 := by
  unfold lowCount
  omega

theorem highCount_lowMove (m : Int) (h : 0 ≤ m) : highCount (-m - 1) = highCount m := by
  unfold highCount
  omega

theorem lowCount_highMove (m : Int) (h : m ≤ 0) : lowCount (1 - m) = lowCount m := by
  unfold lowCount
  omega

theorem highCount_highMove (m : Int) (h : m ≤ 0) : highCount (1 - m) = highCount m + 1 := by
  unfold highCount
  omega

theorem reflectF_apply (w : PlaneWall) (p : Fin 3 → ℚ) (i : Fin 3) :
    reflectF w p i = p i - 2 * frontDist w p * w.n i := rfl

theorem dotF_eVec (j : Fin 3) (v : Fin 3 → ℚ) : dotF (eVec j) v = v j := by
  simp [dotF, eVec, ite_mul, Finset.sum_ite_eq']

theorem frontDist_lowWall (j : Fin 3) (aL : Fin 3 → ℚ) (p : Fin 3 → ℚ) :
    frontDist (lowWall j aL) p = p j := by
  simp [frontDist, lowWall, dotF_eVec]

theorem dotF_negEVec (j : Fin 3) (v : Fin 3 → ℚ) :
    dotF (fun i => if i = j then (-1 : ℚ) else 0) v = -v j := by
  simp [dotF, ite_mul, Finset.sum_ite_eq']

theorem frontDist_highWall (j : Fin 3) (L aH : Fin 3 → ℚ) (p : Fin 3 → ℚ) :
    frontDist (highWall j L aH) p = L j - p j := by
  have h := dotF_negEVec j (fun i => p i - (if i = j then L j else 0))
  simp only [frontDist, highWall]
  rw [h]
  simp

theorem reflectF_lowWall (j : Fin 3) (aL : Fin 3 → ℚ) (p : Fin 3 → ℚ) :
    reflectF (lowWall j aL) p = Function.update p j (-p j) := by
  funext i
  rw [reflectF_apply, frontDist_lowWall]
  by_cases h : i = j
  · subst h
    rw [Function.update_same]
    have he : (lowWall i aL).n i = 1 := by simp [lowWall, eVec]
    rw [he]
    ring
  · rw [Function.update_noteq h]
    have he : (lowWall j aL).n i = 0 := by simp [lowWall, eVec, h]
    rw [he]
    ring

theorem reflectF_highWall (j : Fin 3) (L aH : Fin 3 → ℚ) (p : Fin 3 → ℚ) :
    reflectF (highWall j L aH) p = Function.update p j (2 * L j - p j) := by
  funext i
  rw [reflectF_apply, frontDist_highWall]
  by_cases h : i = j
  · subst h
    rw [Function.update_same]
    have he : (highWall i L aH).n i = -1 := by simp [highWall]
    rw [he]
    ring
  · rw [Function.update_noteq h]
    have he : (highWall j L aH).n i = 0 := by simp [highWall, h]
    rw [he]
    ring

theorem sbPos_apply (L x : Fin 3 → ℚ) (m : Fin 3 → Int) (j : Fin 3) :
    sbPos L x m j = sb1Pos (L j) (x j) (m j) := rfl

theorem sbPos_update (L x : Fin 3 → ℚ) (m : Fin 3 → Int) (j : Fin 3) (v : Int) :
    sbPos L x (Function.update m j v) =
      Function.update (sbPos L x m) j (sb1Pos (L j) (x j) v) := by
  funext i
  by_cases h : i = j
  · subst h
    simp [sbPos, Function.update_same]
  · simp [sbPos, Function.update_noteq h]

theorem sbOrder_update (m : Fin 3 → Int) (j : Fin 3) (v : Int) :
    sbOrder (Function.update m j v) + (m j).natAbs = sbOrder m + v.natAbs := by
  unfold sbOrder
  have hsplit : ∀ g : Fin 3 → Int,
      (∑ i, (g i).natAbs) =
        (∑ i in Finset.univ \ {j}, (g i).natAbs) + (g j).natAbs := fun g =>
    Finset.sum_eq_sum_diff_singleton_add (Finset.mem_univ j) _
  rw [hsplit, hsplit]
  have hc : ∀ i ∈ Finset.univ \ {j},
      ((Function.update m j v) i).natAbs = (m i).natAbs := by
    intro i hi
    rw [Function.update_noteq (Finset.not_mem_singleton.mp (Finset.mem_sdiff.mp hi).2)]
  rw [Finset.sum_congr rfl hc, Function.update_same]
  omega

theorem sbAtt_update_low (aL aH : Fin 3 → ℚ) (m : Fin 3 → Int) (j : Fin 3)
    (h : 0 ≤ m j) :
    sbAtt aL aH (Function.update m j (-m j - 1)) = sbAtt aL aH m * (1 - aL j) := by
  unfold sbAtt
  have hsplit : ∀ g : Fin 3 → Int,
      (∏ i, (1 - aL i) ^ lowCount (g i) * (1 - aH i) ^ highCount (g i)) =
        (∏ i in Finset.univ \ {j},
          (1 - aL i) ^ lowCount (g i) * (1 - aH i) ^ highCount (g i)) *
          ((1 - aL j) ^ lowCount (g j) * (1 - aH j) ^ highCount (g j)) := fun g =>
    Finset.prod_eq_prod_diff_singleton_mul (Finset.mem_univ j) _
  rw [hsplit, hsplit]
  have hc : ∀ i ∈ Finset.univ \ {j},
      (1 - aL i) ^ lowCount ((Function.update m j (-m j - 1)) i) *
        (1 - aH i) ^ highCount ((Function.update m j (-m j - 1)) i) =
      (1 - aL i) ^ lowCount (m i) * (1 - aH i) ^ highCount (m i) := by
    intro i hi
    rw [Function.update_noteq (Finset.not_mem_singleton.mp (Finset.mem_sdiff.mp hi).2)]
  rw [Finset.prod_congr rfl hc, Function.update_same,
    lowCount_lowMove (m j) h, highCount_lowMove (m j) h, pow_succ]
  ring

theorem sbAtt_update_high (aL aH : Fin 3 → ℚ) (m : Fin 3 → Int) (j : Fin 3)
    (h : m j ≤ 0) :
    sbAtt aL aH (Function.update m j (1 - m j)) = sbAtt aL aH m * (1 - aH j) := by
  unfold sbAtt
  have hsplit : ∀ g : Fin 3 → Int,
      (∏ i, (1 - aL i) ^ lowCount (g i) * (1 - aH i) ^ highCount (g i)) =
        (∏ i in Finset.univ \ {j},
          (1 - aL i) ^ lowCount (g i) * (1 - aH i) ^ highCount (g i)) *
          ((1 - aL j) ^ lowCount (g j) * (1 - aH j) ^ highCount (g j)) := fun g =>
    Finset.prod_eq_prod_diff_singleton_mul (Finset.mem_univ j) _
  rw [hsplit, hsplit]
  have hc : ∀ i ∈ Finset.univ \ {j},
      (1 - aL i) ^ lowCount ((Function.update m j (1 - m j)) i) *
        (1 - aH i) ^ highCount ((Function.update m j (1 - m j)) i) =
      (1 - aL i) ^ lowCount (m i) * (1 - aH i) ^ highCount (m i) := by
    intro i hi
    rw [Function.update_noteq (Finset.not_mem_singleton.mp (Finset.mem_sdiff.mp hi).2)]
  rw [Finset.prod_congr rfl hc, Function.update_same,
    lowCount_highMove (m j) h, highCount_highMove (m j) h, pow_succ]
  ring

theorem natAbs_le_sbOrder (m : Fin 3 → Int) (i : Fin 3) :
    (m i).natAbs ≤ sbOrder m := by
  unfold sbOrder
  exact Finset.single_le_sum (f := fun j => (m j).natAbs)
    (fun i _ => Nat.zero_le _) (Finset.mem_univ i)

theorem sbPos_zero (L x : Fin 3 → ℚ) : sbPos L x (fun _ => 0) = x := by
  funext j
  simp [sbPos, sb1Pos]

theorem sbAtt_zero (aL aH : Fin 3 → ℚ) : sbAtt aL aH (fun _ => 0) = 1 := by
  have h1 : lowCount 0 = 0 := by decide
  have h2 : highCount 0 = 0 := by decide
  simp [sbAtt, h1, h2]

theorem sbOrder_zero : sbOrder (fun _ => 0) = 0 := by
  simp [sbOrder]

theorem low_move (L x aL aH : Fin 3 → ℚ) (hx : ∀ j, 0 < x j ∧ x j < L j)
    (j : Fin 3) (m : Fin 3 → Int) :
    (0 < frontDist (lowWall j aL) (sbPos L x m) ↔ 0 ≤ m j) ∧
    (0 ≤ m j →
      reflectF (lowWall j aL) (sbPos L x m) =
        sbPos L x (Function.update m j (-m j - 1)) ∧
      sbAtt aL aH (Function.update m j (-m j - 1)) =
        sbAtt aL aH m * (1 - (lowWall j aL).absorption) ∧
      sbOrder (Function.update m j (-m j - 1)) = sbOrder m + 1) := by
  constructor
  · rw [frontDist_lowWall, sbPos_apply]
    exact sb1Pos_pos_iff (L j) (x j) (m j) (hx j).1 (hx j).2
  · intro h
    refine ⟨?_, ?_, ?_⟩
    · rw [reflectF_lowWall, sbPos_update]
      exact congrArg (Function.update (sbPos L x m) j) (sb1Pos_neg (L j) (x j) (m j))
    · exact sbAtt_update_low aL aH m j h
    · have h1 := sbOrder_update m j (-m j - 1)
      have h2 : (-m j - 1).natAbs = (m j).natAbs + 1 := by omega
      omega

theorem high_move (L x aL aH : Fin 3 → ℚ) (hx : ∀ j, 0 < x j ∧ x j < L j)
    (j : Fin 3) (m : Fin 3 → Int) :
    (0 < frontDist (highWall j L aH) (sbPos L x m) ↔ m j ≤ 0) ∧
    (m j ≤ 0 →
      reflectF (highWall j L aH) (sbPos L x m) =
        sbPos L x (Function.update m j (1 - m j)) ∧
      sbAtt aL aH (Function.update m j (1 - m j)) =
        sbAtt aL aH m * (1 - (highWall j L aH).absorption) ∧
      sbOrder (Function.update m j (1 - m j)) = sbOrder m + 1) := by
  constructor
  · rw [frontDist_highWall, sbPos_apply, sub_pos]
    exact sb1Pos_lt_iff (L j) (x j) (m j) (hx j).1 (hx j).2
  · intro h
    refine ⟨?_, ?_, ?_⟩
    · rw [reflectF_highWall, sbPos_update]
      exact congrArg (Function.update (sbPos L x m) j) (sb1Pos_mirror (L j) (x j) (m j))
    · exact sbAtt_update_high aL aH m j h
    · have h1 := sbOrder_update m j (1 - m j)
      have h2 : (1 - m j).natAbs = (m j).natAbs + 1 := by omega
      omega

theorem fwd_step_low (L x aL aH : Fin 3 → ℚ) (hx : ∀ j, 0 < x j ∧ x j < L j)
    (j : Fin 3) (par : ISNode) (m : Fin 3 → Int) (nd : ISNode)
    (hpos : par.pos = sbPos L x m) (hatt : par.att = sbAtt aL aH m)
    (hcond : (if 0 < frontDist (lowWall j aL) par.pos then
        some (⟨reflectF (lowWall j aL) par.pos, par.order + 1,
          par.att * (1 - (lowWall j aL).absorption),
          par.path ++ [lowWall j aL]⟩ : ISNode) else none) = some nd) :
    ∃ m', sbOrder m' = sbOrder m + 1 ∧ nd.pos = sbPos L x m' ∧
      nd.att = sbAtt aL aH m' ∧ nd.order = par.order + 1 := by
  rw [hpos] at hcond
  by_cases hside : 0 < frontDist (lowWall j aL) (sbPos L x m)
  · rw [if_pos hside] at hcond
    have hm : 0 ≤ m j := ((low_move L x aL aH hx j m).1).mp hside
    obtain ⟨hrefl, hattm, hordm⟩ := (low_move L x aL aH hx j m).2 hm
    cases hcond
    exact ⟨Function.update m j (-m j - 1), hordm, hrefl,
      by rw [hatt, ← hattm], rfl⟩
  · rw [if_neg hside] at hcond
    exact absurd hcond (by simp)

theorem fwd_step_high (L x aL aH : Fin 3 → ℚ) (hx : ∀ j, 0 < x j ∧ x j < L j)
    (j : Fin 3) (par : ISNode) (m : Fin 3 → Int) (nd : ISNode)
    (hpos : par.pos = sbPos L x m) (hatt : par.att = sbAtt aL aH m)
    (hcond : (if 0 < frontDist (highWall j L aH) par.pos then
        some (⟨reflectF (highWall j L aH) par.pos, par.order + 1,
          par.att * (1 - (highWall j L aH).absorption),
          par.path ++ [highWall j L aH]⟩ : ISNode) else none) = some nd) :
    ∃ m', sbOrder m' = sbOrder m + 1 ∧ nd.pos = sbPos L x m' ∧
      nd.att = sbAtt aL aH m' ∧ nd.order = par.order + 1 := by
  rw [hpos] at hcond
  by_cases hside : 0 < frontDist (highWall j L aH) (sbPos L x m)
  · rw [if_pos hside] at hcond
    have hm : m j ≤ 0 := ((high_move L x aL aH hx j m).1).mp hside
    obtain ⟨hrefl, hattm, hordm⟩ := (high_move L x aL aH hx j m).2 hm
    cases hcond
    exact ⟨Function.update m j (1 - m j), hordm, hrefl,
      by rw [hatt, ← hattm], rfl⟩
  · rw [if_neg hside] at hcond
    exact absurd hcond (by simp)

theorem ismLevel_box_fwd (L x aL aH : Fin 3 → ℚ)
    (hx : ∀ j, 0 < x j ∧ x j < L j) (k : Nat) :
    ∀ nd ∈ ismLevel (boxWalls L aL aH) x k,
      ∃ m : Fin 3 → Int, sbOrder m = k ∧ nd.pos = sbPos L x m ∧
        nd.att = sbAtt aL aH m ∧ nd.order = k := by
  induction k with
  | zero =>
    intro nd h
    simp only [ismLevel, List.mem_singleton] at h
    subst h
    exact ⟨fun _ => 0, sbOrder_zero, (sbPos_zero L x).symm,
      (sbAtt_zero aL aH).symm, rfl⟩
  | succ k ih =>
    intro nd h
    simp only [ismLevel, List.mem_flatMap] at h
    obtain ⟨par, hpar, hstep⟩ := h
    obtain ⟨m, hmord, hpos, hatt, hord⟩ := ih par hpar
    simp only [ismStep, List.mem_filterMap] at hstep
    obtain ⟨w, hw, hcond⟩ := hstep
    have hbox : w = lowWall 0 aL ∨ w = highWall 0 L aH ∨ w = lowWall 1 aL ∨
        w = highWall 1 L aH ∨ w = lowWall 2 aL ∨ w = highWall 2 L aH := by
      simpa [boxWalls] using hw
    rcases hbox with rfl | rfl | rfl | rfl | rfl | rfl
    · obtain ⟨m', h1, h2, h3, h4⟩ :=
        fwd_step_low L x aL aH hx 0 par m nd hpos hatt hcond
      exact ⟨m', by omega, h2, h3, by omega⟩
    · obtain ⟨m', h1, h2, h3, h4⟩ :=
        fwd_step_high L x aL aH hx 0 par m nd hpos hatt hcond
      exact ⟨m', by omega, h2, h3, by omega⟩
    · obtain ⟨m', h1, h2, h3, h4⟩ :=
        fwd_step_low L x aL aH hx 1 par m nd hpos hatt hcond
      exact ⟨m', by omega, h2, h3, by omega⟩
    · obtain ⟨m', h1, h2, h3, h4⟩ :=
        fwd_step_high L x aL aH hx 1 par m nd hpos hatt hcond
      exact ⟨m', by omega, h2, h3, by omega⟩
    · obtain ⟨m', h1, h2, h3, h4⟩ :=
        fwd_step_low L x aL aH hx 2 par m nd hpos hatt hcond
      exact ⟨m', by omega, h2, h3, by omega⟩
    · obtain ⟨m', h1, h2, h3, h4⟩ :=
        fwd_step_high L x aL aH hx 2 par m nd hpos hatt hcond
      exact ⟨m', by omega, h2, h3, by omega⟩

theorem lowWall_mem_boxWalls (j : Fin 3) (L aL aH : Fin 3 → ℚ) :
    lowWall j aL ∈ boxWalls L aL aH := by
  fin_cases j <;> simp [boxWalls]

theorem highWall_mem_boxWalls (j : Fin 3) (L aL aH : Fin 3 → ℚ) :
    highWall j L aH ∈ boxWalls L aL aH := by
  fin_cases j <;> simp [boxWalls]

theorem ismLevel_box_bwd (L x aL aH : Fin 3 → ℚ)
    (hx : ∀ j, 0 < x j ∧ x j < L j) (k : Nat) :
    ∀ m : Fin 3 → Int, sbOrder m = k →
      ∃ nd ∈ ismLevel (boxWalls L aL aH) x k,
        nd.pos = sbPos L x m ∧ nd.att = sbAtt aL aH m ∧ nd.order = k := by
  induction k with
  | zero =>
    intro m hm
    have hall : ∀ j, m j = 0 := by
      intro j
      have := natAbs_le_sbOrder m j
      omega
    have hm0 : m = fun _ => 0 := funext hall
    subst hm0
    refine ⟨⟨x, 0, 1, []⟩, ?_, ?_, ?_, rfl⟩
    · simp [ismLevel]
    · exact (sbPos_zero L x).symm
    · exact (sbAtt_zero aL aH).symm
  | succ k ih =>
    intro m hm
    have hex : ∃ j, m j ≠ 0 := by
      by_contra hall
      push_neg at hall
      have hzero : sbOrder m = 0 := by
        unfold sbOrder
        exact Finset.sum_eq_zero (fun j _ => by rw [hall j]; rfl)
      omega
    obtain ⟨j, hj⟩ := hex
    rcases lt_or_gt_of_ne hj with hneg | hpos
    · have hparord : sbOrder (Function.update m j (-m j - 1)) = k := by
        have h1 := sbOrder_update m j (-m j - 1)
        have h2 : (-m j - 1).natAbs + 1 = (m j).natAbs := by omega
        omega
      obtain ⟨nd, hnd, hndpos, hndatt, hndord⟩ :=
        ih (Function.update m j (-m j - 1)) hparord
      have hpj : 0 ≤ Function.update m j (-m j - 1) j := by
        rw [Function.update_same]
        omega
      obtain ⟨hrefl, hattm, _⟩ :=
        (low_move L x aL aH hx j (Function.update m j (-m j - 1))).2 hpj
      have hside : 0 < frontDist (lowWall j aL) nd.pos := by
        rw [hndpos]
        exact ((low_move L x aL aH hx j _).1).mpr hpj
      have hcollapse : Function.update (Function.update m j (-m j - 1)) j
          (-(Function.update m j (-m j - 1) j) - 1) = m := by
        rw [Function.update_same, Function.update_idem]
        have hval : -(-m j - 1) - 1 = m j := by ring
        rw [hval, Function.update_eq_self]
      refine ⟨⟨reflectF (lowWall j aL) nd.pos, nd.order + 1,
          nd.att * (1 - (lowWall j aL).absorption),
          nd.path ++ [lowWall j aL]⟩, ?_, ?_, ?_, ?_⟩
      · simp only [ismLevel, List.mem_flatMap]
        refine ⟨nd, hnd, ?_⟩
        simp only [ismStep, List.mem_filterMap]
        exact ⟨lowWall j aL, lowWall_mem_boxWalls j L aL aH, by rw [if_pos hside]⟩
      · show reflectF (lowWall j aL) nd.pos = sbPos L x m
        rw [hndpos, hrefl, hcollapse]
      · show nd.att * (1 - (lowWall j aL).absorption) = sbAtt aL aH m
        rw [hndatt, ← hattm, hcollapse]
      · show nd.order + 1 = k + 1
        omega
    · have hparord : sbOrder (Function.update m j (1 - m j)) = k := by
        have h1 := sbOrder_update m j (1 - m j)
        have h2 : (1 - m j).natAbs + 1 = (m j).natAbs := by omega
        omega
      obtain ⟨nd, hnd, hndpos, hndatt, hndord⟩ :=
        ih (Function.update m j (1 - m j)) hparord
      have hpj : Function.update m j (1 - m j) j ≤ 0 := by
        rw [Function.update_same]
        omega
      obtain ⟨hrefl, hattm, _⟩ :=
        (high_move L x aL aH hx j (Function.update m j (1 - m j))).2 hpj
      have hside : 0 < frontDist (highWall j L aH) nd.pos := by
        rw [hndpos]
        exact ((high_move L x aL aH hx j _).1).mpr hpj
      have hcollapse : Function.update (Function.update m j (1 - m j)) j
          (1 - Function.update m j (1 - m j) j) = m := by
        rw [Function.update_same, Function.update_idem]
        have hval : 1 - (1 - m j) = m j := by ring
        rw [hval, Function.update_eq_self]
      refine ⟨⟨reflectF (highWall j L aH) nd.pos, nd.order + 1,
          nd.att * (1 - (highWall j L aH).absorption),
          nd.path ++ [highWall j L aH]⟩, ?_, ?_, ?_, ?_⟩
      · simp only [ismLevel, List.mem_flatMap]
        refine ⟨nd, hnd, ?_⟩
        simp only [ismStep, List.mem_filterMap]
        exact ⟨highWall j L aH, highWall_mem_boxWalls j L aL aH, by rw [if_pos hside]⟩
      · show reflectF (highWall j L aH) nd.pos = sbPos L x m
        rw [hndpos, hrefl, hcollapse]
      · show nd.att * (1 - (highWall j L aH).absorption) = sbAtt aL aH m
        rw [hndatt, ← hattm, hcollapse]
      · show nd.order + 1 = k + 1
        omega

theorem mem_intRange (N : Nat) (a : Int) :
    a ∈ intRange N ↔ -(N : Int) ≤ a ∧ a ≤ N := by
  constructor
  · intro ha
    obtain ⟨k, hk, hek⟩ := List.mem_map.mp ha
    rw [List.mem_range] at hk
    omega
  · intro h
    exact List.mem_map.mpr
      ⟨(a + N).toNat, List.mem_range.mpr (by omega), by omega⟩

theorem eta3 (m : Fin 3 → Int) : ![m 0, m 1, m 2] = m := by
  funext i
  fin_cases i <;> simp

theorem mem_shoebox_iff (L x aL aH : Fin 3 → ℚ) (N : Nat) (r : ISRecord) :
    r ∈ image_source_shoebox L x aL aH N ↔
      ∃ m : Fin 3 → Int, sbOrder m ≤ N ∧
        r = ⟨sbPos L x m, sbOrder m, sbAtt aL aH m⟩ := by
  unfold image_source_shoebox
  simp only [List.mem_flatMap]
  constructor
  · rintro ⟨m0, hm0, m1, hm1, m2, hm2, hr⟩
    split at hr
    case isTrue hord =>
      simp only [List.mem_singleton] at hr
      exact ⟨![m0, m1, m2], hord, hr⟩
    case isFalse => exact absurd hr (List.not_mem_nil r)
  · rintro ⟨m, hord, rfl⟩
    have hb : ∀ i, (m i).natAbs ≤ N := fun i =>
      le_trans (natAbs_le_sbOrder m i) hord
    refine ⟨m 0, ?_, m 1, ?_, m 2, ?_, ?_⟩
    · rw [mem_intRange]
      have := hb 0
      omega
    · rw [mem_intRange]
      have := hb 1
      omega
    · rw [mem_intRange]
      have := hb 2
      omega
    · rw [eta3 m, if_pos hord]
      exact List.mem_singleton.mpr rfl

/-- C1: for every axis-aligned shoebox room (with the source strictly
inside it) and every maximum order, the general recursive
`image_source_model` run on the box's six walls and the closed-form
`image_source_shoebox` produce exactly the same set of image-source
records — position, order and attenuation agree exactly, hence within
any floating tolerance — so the two paths populate the same record
collection (sources, orders, attenuations) and are interchangeable. -/
theorem image_source_model_shoebox_equiv (L x aL aH : Fin 3 → ℚ)
    (hx : ∀ j, 0 < x j ∧ x j < L j) (N : Nat) (r : ISRecord) :
    (∃ nd ∈ image_source_model (boxWalls L aL aH) x N, toRecord nd = r) ↔
      r ∈ image_source_shoebox L x aL aH N := by
  constructor
  · rintro ⟨nd, hnd, rfl⟩
    simp only [image_source_model, List.mem_flatMap, List.mem_range] at hnd
    obtain ⟨k, hkN, hk⟩ := hnd
    obtain ⟨m, hmord, hpos, hatt, hord⟩ := ismLevel_box_fwd L x aL aH hx k nd hk
    rw [mem_shoebox_iff]
    refine ⟨m, by omega, ?_⟩
    unfold toRecord
    rw [hpos, hatt, hord, hmord]
  · intro hr
    rw [mem_shoebox_iff] at hr
    obtain ⟨m, hord, rfl⟩ := hr
    obtain ⟨nd, hnd, hpos, hatt, hndord⟩ :=
      ismLevel_box_bwd L x aL aH hx (sbOrder m) m rfl
    refine ⟨nd, ?_, ?_⟩
    · simp only [image_source_model, List.mem_flatMap, List.mem_range]
      exact ⟨sbOrder m, by omega, hnd⟩
    · unfold toRecord
      rw [hpos, hatt, hndord]

/-- Witness for the shoebox equivalence: in the 4 × 3 × 2 box with the
source at (1,1,1), the order-0 record produced by the recursive model
is also produced by the closed-form shoebox path. -/
theorem image_source_model_shoebox_equiv_witness :
    (⟨fun _ => 1, 0, 1⟩ : ISRecord) ∈
      image_source_shoebox ![4, 3, 2] (fun _ => 1) (fun _ => 1 / 2)
        (fun _ => 1 / 4) 0 :=
  (image_source_model_shoebox_equiv ![4, 3, 2] (fun _ => 1) (fun _ => 1 / 2)
      (fun _ => 1 / 4)
      (by intro j; fin_cases j <;> norm_num) 0 ⟨fun _ => 1, 0, 1⟩).mp
    ⟨⟨fun _ => 1, 0, 1, []⟩, by simp [image_source_model, ismLevel], rfl⟩

end Libroom
